import Mathlib

/-!
Verification of the locknote repository's core engines against its
specification.

The development shallowly embeds the relevant TypeScript sources:

* `src/screens/SayangScreen.tsx` — the shared 24×24 pixel canvas: the
  `floodFill` bucket tool, per-stroke undo snapshots (`strokePrevRef`,
  `undoStackRef`), `applyChanges`, `handleTouch`, the pan-gesture stroke
  lifecycle (`onBegin`/`onUpdate`/`onEnd`) and `handleUndo`.
* `src/services/auth.ts` — the pairing protocol's `joinWithCode`.
* the message service (`sendMessage`, `subscribeToLatestMessage`,
  `deleteMessage`) writing the history log and the denormalised
  `latest` projection.

JavaScript objects (`Record<string, …>`) used as dictionaries keyed by
cell strings `"x_y"` are embedded either as functions `Cell → Option _`
(for the authoritative pixel map, which is only ever read pointwise) or
as association lists with JavaScript record semantics (insertion order
preserved, assignment to an existing key updates in place) where the
source iterates over `Object.keys`/`Object.entries`.
-/

namespace LockNote

/-! ### Grid, cells and pixel maps (SayangScreen.tsx) -/

/-- A grid cell, the parse of a `"x_y"` record key.  `Math.floor` of touch
coordinates can be negative, so coordinates are integers. -/
abbrev Cell : Type := Int × Int

/-- A CSS colour string. -/
abbrev Color : Type := String

/-- The sparse pixel map `Record<string, string>`: `pixels[k] ?? null`
becomes plain application.  Absent key = `none`. -/
abbrev PixelMap : Type := Cell → Option Color

/-- A change set `Record<string, string | null>` as an insertion-ordered
association list. `none` means "delete this cell". -/
abbrev Changes : Type := List (Cell × Option Color)

/-- The grid bound `GRID = 24`; the bounds check `x < 0 || x >= GRID || y < 0 || y >= GRID`
from `floodFill` and `handleTouch`, stated positively. -/
def inGrid (c : Cell) : Prop := 0 ≤ c.1 ∧ c.1 < 24 ∧ 0 ≤ c.2 ∧ c.2 < 24

instance (c : Cell) : Decidable (inGrid c) := by
  unfold inGrid; infer_instance

/-- The 24×24 board as a finite set, used for the termination measure of
the flood-fill worklist. -/
def gridFinset : Finset Cell := Finset.Icc (0 : Int) 23 ×ˢ Finset.Icc (0 : Int) 23

/-- The four neighbours pushed by `floodFill`, in push order
`[x+1,y], [x-1,y], [x,y+1], [x,y-1]`. -/
def nbrs (c : Cell) : List Cell :=
  [(c.1 + 1, c.2), (c.1 - 1, c.2), (c.1, c.2 + 1), (c.1, c.2 - 1)]

/-- Four-connectivity of two cells. -/
def adjacent (a b : Cell) : Prop :=
  b = (a.1 + 1, a.2) ∨ b = (a.1 - 1, a.2) ∨ b = (a.1, a.2 + 1) ∨ b = (a.1, a.2 - 1)

/-- Reachability `Reach p t s c`: cell `c` belongs to the maximal 4-connected region of
in-grid cells of colour `t` containing the start cell `s` (`t` is the start
cell's original colour; `none` = absent, distinct from every colour). -/
inductive Reach (p : PixelMap) (t : Option Color) (s : Cell) : Cell → Prop
  | refl : inGrid s → p s = t → Reach p t s s
  | step {a b : Cell} : Reach p t s a → adjacent a b → inGrid b → p b = t →
      Reach p t s b

/-- The keys of a record association list, in insertion order
(`Object.keys`). -/
def keysOf {α : Type} (l : List (Cell × α)) : List Cell := l.map Prod.fst

/-- Record lookup: `l[k]`, `none` when the key is absent. -/
def rlookup {α : Type} : List (Cell × α) → Cell → Option α
  | [], _ => none
  | (k, v) :: rest, c => if c = k then some v else rlookup rest c

/-- Record assignment `l[k] = v`: updates in place when the key exists,
appends otherwise (JavaScript record semantics). -/
def rset {α : Type} : List (Cell × α) → Cell → α → List (Cell × α)
  | [], k, v => [(k, v)]
  | (k2, v2) :: rest, k, v =>
      if k2 = k then (k, v) :: rest else (k2, v2) :: rset rest k v

/-- Pointwise pixel update: `c === null ? delete next[k] : next[k] = c`. -/
def pset (m : PixelMap) (k : Cell) (v : Option Color) : PixelMap :=
  fun c => if c = k then v else m c

/-- The `setPixels` loop of `applyChanges`: fold the change entries over
the map, deleting on `none`. -/
def applyPixels (m : PixelMap) (ch : Changes) : PixelMap :=
  ch.foldl (fun acc kc => pset acc kc.1 kc.2) m

/-! ### Flood fill (SayangScreen.tsx, lines 49–74) -/

/-- The BFS worklist loop of `floodFill`: pop the queue head, skip it when
out of bounds, already visited, or not of the target colour; otherwise mark
it visited, record the change, and push the four neighbours. -/
def ffAux (p : PixelMap) (t : Option Color) (fill : Color) :
    List Cell → Finset Cell → Changes → Changes
  | [], _, changes => changes
  | c :: rest, visited, changes =>
    if ¬ inGrid c then ffAux p t fill rest visited changes
    else if c ∈ visited then ffAux p t fill rest visited changes
    else if ¬ (p c = t) then ffAux p t fill rest visited changes
    else ffAux p t fill (rest ++ nbrs c) (insert c visited)
      (changes ++ [(c, some fill)])
  termination_by queue visited _ => ((gridFinset \ visited).card, queue.length)
  decreasing_by
  · apply Prod.Lex.right; simp
  · apply Prod.Lex.right; simp
  · apply Prod.Lex.right; simp
  · apply Prod.Lex.left
    apply Finset.card_lt_card
    have hsub : gridFinset \ insert c visited ⊆ gridFinset \ visited := by
      intro z hz
      simp only [Finset.mem_sdiff, Finset.mem_insert] at hz ⊢
      exact ⟨hz.1, fun hzv => hz.2 (Or.inr hzv)⟩
    refine (Finset.ssubset_iff_of_subset hsub).mpr ⟨c, ?_, ?_⟩
    · simp only [Finset.mem_sdiff]
      refine ⟨?_, by assumption⟩
      have hin : inGrid c := by by_contra hng; simp_all
      obtain ⟨hx0, hx1, hy0, hy1⟩ := hin
      simp only [gridFinset, Finset.mem_product, Finset.mem_Icc]
      exact ⟨⟨hx0, by omega⟩, hy0, by omega⟩
    · simp

/-- The bucket tool `floodFill(pixels, startX, startY, fillColor)`: no-op when the start
cell already has the fill colour, otherwise the BFS from the start cell. -/
def floodFill (pixels : PixelMap) (startX startY : Int) (fillColor : Color) :
    Changes :=
  let targetColor := pixels (startX, startY)
  if targetColor = some fillColor then []
  else ffAux pixels targetColor fillColor [(startX, startY)] ∅ []

/-! ### Canvas state machine (SayangScreen.tsx)

The refs that back the gesture callbacks: `pixelsRef`, `strokePrevRef`,
`fillDoneRef`, `lastKeyRef`, `undoStackRef`, `pendingRef`.  The UI-only
`canUndo` flag and the flush timer are omitted — no claim mentions them.
`lastKeyRef` starts as the string `''`, which never equals a `"x_y"` key,
so it is embedded as `Option Cell` with `none` for `''`. -/

inductive Tool : Type
  | pencil
  | fill
  | eraser
  deriving DecidableEq, Repr

/-- One sampled pointer event, already snapped to a grid cell
(`gx = Math.floor(tx / cellSize)` — the float division itself is UI
geometry and outside the embedding), together with the tool, colour and
brush refs as read at that sample. -/
structure Touch : Type where
  gx : Int
  gy : Int
  tool : Tool
  color : Color
  brush : Nat
  deriving DecidableEq

structure CanvasState : Type where
  pixels : PixelMap
  strokePrev : Changes
  fillDone : Bool
  lastKey : Option Cell
  undoStack : List Changes
  pending : Changes

/-- JavaScript `Array.prototype.slice(-n)`: the last `n` elements. -/
def takeRight {α : Type} (n : Nat) (l : List α) : List α :=
  l.drop (l.length - n)

/-- The optimistic apply `applyChanges(changes, saveUndo)`: optionally push a pre-image
snapshot (`saveUndo && length > 0`), fold the changes over the pixel map,
and merge them into the pending write buffer (`Object.assign`). -/
def applyChanges (s : CanvasState) (changes : Changes) (saveUndo : Bool) :
    CanvasState :=
  let s1 :=
    if saveUndo ∧ changes ≠ [] then
      let before := changes.foldl (fun b kc => rset b kc.1 (s.pixels kc.1)) []
      { s with undoStack := takeRight 19 s.undoStack ++ [before] }
    else s
  { s1 with
    pixels := applyPixels s1.pixels changes
    pending := changes.foldl (fun pd kc => rset pd kc.1 kc.2) s1.pending }

/-- The fill branch's merge into `strokePrevRef`: for each changed key not
yet recorded, record the current pixel colour (`pixels[key] ?? null`). -/
def mergePrev (sp : Changes) (p : PixelMap) (ch : Changes) : Changes :=
  ch.foldl
    (fun acc kc =>
      if (rlookup acc kc.1).isSome then acc else acc ++ [(kc.1, p kc.1)])
    sp

/-- One iteration of the pencil/eraser brush loop: skip out-of-grid cells;
otherwise record the first-touch pre-image and set the change. -/
def pencilStep (p : PixelMap) (newColor : Option Color)
    (acc : Changes × Changes) (c : Cell) : Changes × Changes :=
  if inGrid c then
    let sp := if (rlookup acc.1 c).isSome then acc.1 else acc.1 ++ [(c, p c)]
    (sp, rset acc.2 c newColor)
  else acc

/-- The brush footprint offsets: `for dx in 0..bs-1, for dy in 0..bs-1`. -/
def brushOffsets (bs : Nat) : List (Nat × Nat) :=
  (List.range bs).flatMap fun dx => (List.range bs).map fun dy => (dx, dy)

/-- The paint handler `handleTouch(tx, ty)` with the computed change set returned alongside
the new state (the source's local `changes` object, used to state which
cells an edit touches). -/
def handleTouchC (s : CanvasState) (t : Touch) : CanvasState × Changes :=
  if ¬ inGrid (t.gx, t.gy) then (s, [])
  else
    match t.tool with
    | Tool.fill =>
      if s.fillDone then (s, [])
      else
        let s1 : CanvasState := { s with fillDone := true }
        let changes := floodFill s.pixels t.gx t.gy t.color
        if changes = [] then (s1, [])
        else
          let sp := mergePrev s1.strokePrev s.pixels changes
          (applyChanges { s1 with strokePrev := sp } changes false, changes)
    | _ =>
      if s.lastKey = some (t.gx, t.gy) then (s, [])
      else
        let s1 : CanvasState := { s with lastKey := some (t.gx, t.gy) }
        let newColor : Option Color :=
          if t.tool = Tool.eraser then none else some t.color
        let cells :=
          (brushOffsets t.brush).map fun d =>
            ((t.gx + (d.1 : Int), t.gy + (d.2 : Int)) : Cell)
        let spch := cells.foldl (pencilStep s.pixels newColor) (s1.strokePrev, [])
        (applyChanges { s1 with strokePrev := spch.1 } spch.2 false, spch.2)

def handleTouch (s : CanvasState) (t : Touch) : CanvasState :=
  (handleTouchC s t).1

/-- Gesture start `pan.onBegin`: reset the per-stroke refs (the begin event's own touch
is part of the stroke's touch list). -/
def strokeBegin (s : CanvasState) : CanvasState :=
  { s with strokePrev := [], fillDone := false, lastKey := none }

/-- Gesture end `pan.onEnd`: push the stroke's pre-image record as one undo entry
(capped via `slice(-19)`), then reset `strokePrevRef` and `lastKeyRef`. -/
def strokeEnd (s : CanvasState) : CanvasState :=
  if s.strokePrev = [] then { s with strokePrev := [], lastKey := none }
  else
    { s with
      undoStack := takeRight 19 s.undoStack ++ [s.strokePrev]
      strokePrev := []
      lastKey := none }

/-- The state after `onBegin` and all sampled `handleTouch` calls of one
stroke, before `onEnd`. -/
def midStroke (s : CanvasState) (ts : List Touch) : CanvasState :=
  ts.foldl handleTouch (strokeBegin s)

/-- One whole stroke: pointer-down (`onBegin`), the sampled touches, and
pointer-up (`onEnd`). -/
def doStroke (s : CanvasState) (ts : List Touch) : CanvasState :=
  strokeEnd (midStroke s ts)

/-- The pre-image record `strokePrevRef.current` as it stands when the
stroke ends — the snapshot `onEnd` pushes (when non-empty). -/
def strokeSnap (s : CanvasState) (ts : List Touch) : Changes :=
  (midStroke s ts).strokePrev

/-- Run the touches while collecting the keys of every computed change
set; the concatenation lists every cell edited during the stroke. -/
def touchesWithKeys : CanvasState → List Touch → CanvasState × List Cell
  | s, [] => (s, [])
  | s, t :: rest =>
    let r1 := handleTouchC s t
    let r2 := touchesWithKeys r1.1 rest
    (r2.1, keysOf r1.2 ++ r2.2)

/-- The set `S` of cells touched (written) by a stroke's edits. -/
def strokeTouched (s : CanvasState) (ts : List Touch) : List Cell :=
  (touchesWithKeys (strokeBegin s) ts).2

def runStrokes (s : CanvasState) (strokes : List (List Touch)) : CanvasState :=
  strokes.foldl doStroke s

/-- Undo `handleUndo`: pop the most recent snapshot (if any) and re-apply it
with `saveUndo = false`. -/
def handleUndo (s : CanvasState) : CanvasState :=
  match s.undoStack.getLast? with
  | none => s
  | some last => applyChanges { s with undoStack := s.undoStack.dropLast } last false

def undoN : Nat → CanvasState → CanvasState
  | 0, s => s
  | n + 1, s => handleUndo (undoN n s)

/-- Each stroke of the sequence pushes a snapshot ("committed"): its
pre-image record is non-empty in the state it actually runs in. -/
def Committed (s0 : CanvasState) (strokes : List (List Touch)) : Prop :=
  ∀ i (h : i < strokes.length),
    strokeSnap (runStrokes s0 (strokes.take i)) strokes[i] ≠ []

instance (s0 : CanvasState) (strokes : List (List Touch)) :
    Decidable (Committed s0 strokes) := by
  unfold Committed; infer_instance

/-! ### Pairing protocol (services/auth.ts) -/

/-- Record stored at `pairCodes/(code)`. -/
structure PairCodeRec : Type where
  userId : String
  userName : String
  createdAt : Nat
  deriving DecidableEq, Repr

/-- Record stored at `pairs/(pairId)`. -/
structure PairRec : Type where
  id : String
  user1 : String
  user2 : String
  createdAt : Nat
  deriving DecidableEq, Repr

/-- The slice of the realtime database `joinWithCode` reads and writes:
pair-code records keyed by code, each user's `pairId` field, and pair
records keyed by pair id.  (The joining device's local `AsyncStorage`
write is device state, not store state, and is not modelled.) -/
structure Store : Type where
  pairCodes : String → Option PairCodeRec
  userPairId : String → Option String
  pairs : String → Option PairRec

inductive JoinError : Type
  | codeNotFound
  | selfPair
  deriving DecidableEq, Repr

/-- Path write: `set(ref(db, path), v)` (with `v = none` for `remove`). -/
def setFn {β : Type} (m : String → Option β) (k : String) (v : Option β) :
    String → Option β :=
  fun k2 => if k2 = k then v else m k2

/-- JavaScript `code.toUpperCase()`, embedded as a character-wise uppercase map over
the string's characters. -/
def upperCode (s : String) : String := ⟨s.data.map Char.toUpper⟩

/-- Pair joining `joinWithCode(code, joiningUserId, joiningUserName)`: look up the
uppercased code, fail on a missing code, fail on self-pairing, otherwise
write the pair record, both users' `pairId` fields, and delete the code.
`now` stands for `Date.now()`.  Errors are returned before any write, so
the paired store is returned unchanged on failure. -/
def joinWithCode (st : Store) (code joiningUserId joiningUserName : String)
    (now : Nat) : Except JoinError String × Store :=
  let codeKey := upperCode code
  match st.pairCodes codeKey with
  | none => (Except.error JoinError.codeNotFound, st)
  | some codeData =>
    if codeData.userId = joiningUserId then
      (Except.error JoinError.selfPair, st)
    else
      let pairId := codeData.userId ++ "_" ++ joiningUserId
      let pair : PairRec :=
        { id := pairId, user1 := codeData.userId, user2 := joiningUserId
          createdAt := now }
      let st1 := { st with pairs := setFn st.pairs pairId (some pair) }
      let st2 :=
        { st1 with userPairId := setFn st1.userPairId codeData.userId (some pairId) }
      let st3 :=
        { st2 with userPairId := setFn st2.userPairId joiningUserId (some pairId) }
      let st4 := { st3 with pairCodes := setFn st3.pairCodes codeKey none }
      (Except.ok pairId, st4)

/-! ### Message engine (message service in the repository) -/

inductive MessageType : Type
  | text
  | drawing
  deriving DecidableEq, Repr

/-- Full history record at `/messages/{pairId}/history/{id}`. -/
structure Message : Type where
  id : String
  pairId : String
  authorId : String
  authorName : String
  content : String
  type : MessageType
  timestamp : Nat
  read : Bool
  deriving DecidableEq, Repr

/-- Denormalised record at `/messages/{pairId}/latest`. -/
structure LatestMessage : Type where
  content : String
  type : MessageType
  authorId : String
  authorName : String
  timestamp : Nat
  deriving DecidableEq, Repr

/-- The serialized record cached for the widget renderers. -/
structure WidgetData : Type where
  message : String
  fromName : String
  type : MessageType
  timestamp : Nat
  deriving DecidableEq, Repr

/-- The per-pair message paths: the history collection keyed by message
id, the `latest` projection, and the local widget cache. -/
structure MsgStore : Type where
  history : String → Option Message
  latest : Option LatestMessage
  widgetCache : Option WidgetData

/-- Arguments of one `sendMessage` call, together with its environment
inputs: `timestamp` is `Date.now()` at the call, `newId` the id generated
by `push(historyRef)`. -/
structure SendParams : Type where
  pairId : String
  authorId : String
  authorName : String
  content : String
  type : MessageType
  timestamp : Nat
  newId : String
  deriving DecidableEq, Repr

/-- Sending `sendMessage`: write the full message to history, then overwrite the
`latest` projection, then cache the widget data locally. -/
def sendMessage (st : MsgStore) (p : SendParams) : MsgStore :=
  let message : Message :=
    { id := p.newId, pairId := p.pairId, authorId := p.authorId
      authorName := p.authorName, content := p.content, type := p.type
      timestamp := p.timestamp, read := false }
  let st1 := { st with history := setFn st.history p.newId (some message) }
  let latest : LatestMessage :=
    { content := p.content, type := p.type, authorId := p.authorId
      authorName := p.authorName, timestamp := p.timestamp }
  let st2 := { st1 with latest := some latest }
  let widgetData : WidgetData :=
    { message := p.content, fromName := p.authorName, type := p.type
      timestamp := p.timestamp }
  { st2 with widgetCache := some widgetData }

/-- The value `subscribeToLatestMessage` pushes to its callback:
`snap.exists() ? snap.val() : null` for the `latest` path. -/
def subscribeToLatestMessage (st : MsgStore) : Option LatestMessage :=
  st.latest

def runSends (st : MsgStore) (ps : List SendParams) : MsgStore :=
  ps.foldl sendMessage st

/-- Deletion `deleteMessage(pairId, messageId)`:
`remove(ref(db, messages/pairId/history/messageId))`. -/
def deleteMessage (st : MsgStore) (pairId messageId : String) : MsgStore :=
  { st with history := setFn st.history messageId none }

/-- The externally visible writes `sendMessage` awaits, in issue order.
Each `await` completes before the next event is issued. -/
inductive SendEvent : Type
  | historyWrite (msgId : String) (msg : Message)
  | latestWrite (proj : LatestMessage)
  | localCacheWrite (data : WidgetData)
  | androidWidgetUpdate (data : WidgetData)
  | iosWidgetUpdate (data : WidgetData)
  deriving DecidableEq, Repr

/-- The write trace of one `sendMessage` call: the history `set` is
awaited first, then the `latest` projection `set`, then the local cache
and the two widget refreshes. -/
def sendMessageEvents (p : SendParams) : List SendEvent :=
  let message : Message :=
    { id := p.newId, pairId := p.pairId, authorId := p.authorId
      authorName := p.authorName, content := p.content, type := p.type
      timestamp := p.timestamp, read := false }
  let latest : LatestMessage :=
    { content := p.content, type := p.type, authorId := p.authorId
      authorName := p.authorName, timestamp := p.timestamp }
  let widgetData : WidgetData :=
    { message := p.content, fromName := p.authorName, type := p.type
      timestamp := p.timestamp }
  [SendEvent.historyWrite p.newId message,
   SendEvent.latestWrite latest,
   SendEvent.localCacheWrite widgetData,
   SendEvent.androidWidgetUpdate widgetData,
   SendEvent.iosWidgetUpdate widgetData]

/-! ### Concrete witness inputs -/

/-- A small concrete pixel map: a two-cell red region at `(0,0)`–`(0,1)`. -/
def pixelsW : PixelMap := fun c =>
  if c = (0, 0) then some "r" else if c = (0, 1) then some "r" else none

/-- A store holding one pair code created by user `U1`. -/
def storeW : Store :=
  { pairCodes := fun k =>
      if k = "QK7M2X" then
        some { userId := "U1", userName := "Alice", createdAt := 0 }
      else none
    userPairId := fun _ => none
    pairs := fun _ => none }

/-- An empty per-pair message store. -/
def msgStoreW : MsgStore :=
  { history := fun _ => none, latest := none, widgetCache := none }

/-- A concrete text send. -/
def sendW1 : SendParams :=
  { pairId := "pairW", authorId := "U1", authorName := "Alice"
    content := "hello", type := MessageType.text, timestamp := 100
    newId := "m1" }

/-- A concrete drawing send. -/
def sendW2 : SendParams :=
  { pairId := "pairW", authorId := "U2", authorName := "Bob"
    content := "doodle", type := MessageType.drawing, timestamp := 200
    newId := "m2" }

/-- A concrete pencil touch at the origin with a 2×2 brush. -/
def touchW : Touch :=
  { gx := 0, gy := 0, tool := Tool.pencil, color := "g", brush := 2 }

/-- A fresh canvas over the witness pixel map. -/
def canvasW : CanvasState :=
  { pixels := pixelsW, strokePrev := [], fillDone := false, lastKey := none
    undoStack := [], pending := [] }

/-- Twenty-one committed single-touch strokes. -/
def strokesW : List (List Touch) := List.replicate 21 [touchW]

/-- A canvas whose undo stack holds two snapshots. -/
def canvasW2 : CanvasState :=
  { pixels := pixelsW, strokePrev := [], fillDone := false, lastKey := none
    undoStack := [[((2, 2), some "q")], [((0, 0), none), ((3, 3), some "z")]]
    pending := [] }

/-! ### Record-list lemmas -/

lemma keysOf_append {α : Type} (l1 l2 : List (Cell × α)) :
    keysOf (l1 ++ l2) = keysOf l1 ++ keysOf l2 := by
  simp [keysOf]

lemma rlookup_isSome_iff {α : Type} :
    ∀ (l : List (Cell × α)) (c : Cell), (rlookup l c).isSome ↔ c ∈ keysOf l
  | [], c => by simp [rlookup, keysOf]
  | (k, v) :: rest, c => by
    by_cases h : c = k
    · simp [rlookup, keysOf, h]
    · simp only [rlookup, keysOf, List.map_cons, List.mem_cons, if_neg h]
      rw [rlookup_isSome_iff rest c]
      simp [keysOf, h]

lemma rlookup_eq_none_iff {α : Type} (l : List (Cell × α)) (c : Cell) :
    rlookup l c = none ↔ c ∉ keysOf l := by
  rw [← rlookup_isSome_iff]
  cases rlookup l c <;> simp

lemma rlookup_append {α : Type} :
    ∀ (l1 l2 : List (Cell × α)) (c : Cell),
      rlookup (l1 ++ l2) c =
        match rlookup l1 c with
        | some v => some v
        | none => rlookup l2 c
  | [], l2, c => by simp [rlookup]
  | (k, v) :: rest, l2, c => by
    by_cases h : c = k
    · simp [rlookup, h]
    · simp only [List.cons_append, rlookup, if_neg h]
      exact rlookup_append rest l2 c

lemma rlookup_append_single {α : Type} (l : List (Cell × α)) (k : Cell)
    (v : α) (c : Cell) :
    rlookup (l ++ [(k, v)]) c =
      match rlookup l c with
      | some w => some w
      | none => if c = k then some v else none := by
  rw [rlookup_append]
  cases rlookup l c <;> simp [rlookup]

lemma keysOf_rset {α : Type} :
    ∀ (l : List (Cell × α)) (k : Cell) (v : α),
      keysOf (rset l k v) = if k ∈ keysOf l then keysOf l else keysOf l ++ [k]
  | [], k, v => by simp [rset, keysOf]
  | (k2, v2) :: rest, k, v => by
    by_cases h : k2 = k
    · simp [rset, keysOf, h]
    · have hne : ¬ k = k2 := fun hh => h hh.symm
      simp only [rset, if_neg h, keysOf, List.map_cons, List.mem_cons]
      rw [show (rset rest k v).map Prod.fst = keysOf (rset rest k v) from rfl,
        keysOf_rset rest k v]
      simp only [keysOf]
      by_cases hm : k ∈ List.map Prod.fst rest <;> simp [hm, hne]

lemma rlookup_rset {α : Type} :
    ∀ (l : List (Cell × α)) (k : Cell) (v : α) (c : Cell),
      rlookup (rset l k v) c = if c = k then some v else rlookup l c
  | [], k, v, c => by simp [rset, rlookup]
  | (k2, v2) :: rest, k, v, c => by
    by_cases h : k2 = k
    · subst h
      by_cases hc : c = k2 <;> simp [rset, rlookup, hc]
    · by_cases hc : c = k2
      · subst hc
        simp [rset, rlookup, h]
      · simp only [rset, if_neg h, rlookup, if_neg hc]
        exact rlookup_rset rest k v c

lemma nodup_keysOf_rset {α : Type} (l : List (Cell × α)) (k : Cell) (v : α)
    (h : (keysOf l).Nodup) : (keysOf (rset l k v)).Nodup := by
  rw [keysOf_rset]
  by_cases hm : k ∈ keysOf l
  · simpa [hm]
  · simp only [if_neg hm]
    simpa [List.nodup_append] using ⟨h, hm⟩

lemma applyPixels_notin :
    ∀ (ch : Changes) (m : PixelMap) (c : Cell),
      c ∉ keysOf ch → applyPixels m ch c = m c
  | [], m, c, _ => rfl
  | (k, v) :: rest, m, c, h => by
    simp only [keysOf, List.map_cons, List.mem_cons, not_or] at h
    simp only [applyPixels, List.foldl_cons]
    rw [show List.foldl (fun acc kc => pset acc kc.1 kc.2) (pset m k v) rest
        = applyPixels (pset m k v) rest from rfl]
    rw [applyPixels_notin rest (pset m k v) c h.2]
    simp [pset, h.1]

lemma applyPixels_lookup :
    ∀ (ch : Changes) (m : PixelMap) (c : Cell), (keysOf ch).Nodup →
      applyPixels m ch c =
        match rlookup ch c with
        | some v => v
        | none => m c
  | [], m, c, _ => rfl
  | (k, v) :: rest, m, c, h => by
    simp only [keysOf, List.map_cons, List.nodup_cons] at h
    by_cases hc : c = k
    · subst hc
      simp only [applyPixels, List.foldl_cons, rlookup, if_pos rfl]
      rw [show List.foldl (fun acc kc => pset acc kc.1 kc.2) (pset m c v) rest
          = applyPixels (pset m c v) rest from rfl]
      rw [applyPixels_notin rest (pset m c v) c h.1]
      simp [pset]
    · simp only [applyPixels, List.foldl_cons, rlookup, if_neg hc]
      rw [show List.foldl (fun acc kc => pset acc kc.1 kc.2) (pset m k v) rest
          = applyPixels (pset m k v) rest from rfl]
      rw [applyPixels_lookup rest (pset m k v) c h.2]
      cases rlookup rest c <;> simp [pset, hc]

/-! ### Flood-fill correctness (claim C1) -/

lemma mem_nbrs {a b : Cell} : b ∈ nbrs a ↔ adjacent a b := by
  simp [nbrs, adjacent]

lemma ffAux_nil (p : PixelMap) (t : Option Color) (fill : Color)
    (visited : Finset Cell) (changes : Changes) :
    ffAux p t fill [] visited changes = changes := by
  simp [ffAux]

lemma ffAux_cons_skip (p : PixelMap) (t : Option Color) (fill : Color)
    (c : Cell) (rest : List Cell) (visited : Finset Cell) (changes : Changes)
    (h : ¬ inGrid c ∨ c ∈ visited ∨ ¬ p c = t) :
    ffAux p t fill (c :: rest) visited changes =
      ffAux p t fill rest visited changes := by
  rcases h with h | h | h
  · simp [ffAux, h]
  · by_cases hg : inGrid c <;> simp [ffAux, hg, h]
  · by_cases hg : inGrid c
    · by_cases hv : c ∈ visited <;> simp [ffAux, hg, hv, h]
    · simp [ffAux, hg]

lemma ffAux_cons_visit (p : PixelMap) (t : Option Color) (fill : Color)
    (c : Cell) (rest : List Cell) (visited : Finset Cell) (changes : Changes)
    (h1 : inGrid c) (h2 : c ∉ visited) (h3 : p c = t) :
    ffAux p t fill (c :: rest) visited changes =
      ffAux p t fill (rest ++ nbrs c) (insert c visited)
        (changes ++ [(c, some fill)]) := by
  simp [ffAux, h1, h2, h3]

/-- Worklist invariants of a BFS flood fill: every visited cell is
reachable; every queued cell is the start or a neighbour of a visited
cell; the visited set is closed up to the queue; the change keys track
the visited set. -/
lemma ffAux_spec (p : PixelMap) (t : Option Color) (fill : Color) (s : Cell) :
    ∀ (queue : List Cell) (visited : Finset Cell) (changes : Changes),
    (∀ c ∈ visited, Reach p t s c) →
    (∀ c ∈ queue, c = s ∨ ∃ v ∈ visited, adjacent v c) →
    (∀ v ∈ visited, ∀ w, adjacent v w → inGrid w → p w = t →
        w ∈ visited ∨ w ∈ queue) →
    (inGrid s → p s = t → s ∈ visited ∨ s ∈ queue) →
    (∀ c, c ∈ keysOf changes ↔ c ∈ visited) →
    (keysOf changes).Nodup →
    (∀ e ∈ changes, e.2 = some fill) →
    ((keysOf (ffAux p t fill queue visited changes)).Nodup
      ∧ (∀ e ∈ ffAux p t fill queue visited changes, e.2 = some fill)
      ∧ (∀ c, c ∈ keysOf (ffAux p t fill queue visited changes) ↔
          Reach p t s c)) := by
  intro queue visited changes
  induction queue, visited, changes using ffAux.induct p t fill with
  | case1 visited changes =>
    intro hv hq hcl hs hkeys hnd hval
    rw [ffAux_nil]
    refine ⟨hnd, hval, fun c => ⟨fun hm => hv c ((hkeys c).mp hm), fun hr => ?_⟩⟩
    have hvis : ∀ d, Reach p t s d → d ∈ visited := by
      intro d hd
      induction hd with
      | refl hin hps =>
        rcases hs hin hps with h | h
        · exact h
        · simp at h
      | step hra hadj hinb hpb ih =>
        rcases hcl _ ih _ hadj hinb hpb with h | h
        · exact h
        · simp at h
    exact (hkeys c).mpr (hvis c hr)
  | case2 c rest visited changes hng ih =>
    intro hv hq hcl hs hkeys hnd hval
    rw [ffAux_cons_skip p t fill c rest visited changes (Or.inl hng)]
    refine ih hv (fun d hd => hq d (List.mem_cons_of_mem c hd)) ?_ ?_ hkeys hnd hval
    · intro v hvm w hadj hinw hpw
      rcases hcl v hvm w hadj hinw hpw with h | h
      · exact Or.inl h
      · rcases List.mem_cons.mp h with h | h
        · exact absurd hinw (h ▸ hng)
        · exact Or.inr h
    · intro hins hps
      rcases hs hins hps with h | h
      · exact Or.inl h
      · rcases List.mem_cons.mp h with h | h
        · exact absurd hins (h ▸ hng)
        · exact Or.inr h
  | case3 c rest visited changes hg hvis ih =>
    intro hv hq hcl hs hkeys hnd hval
    rw [ffAux_cons_skip p t fill c rest visited changes (Or.inr (Or.inl hvis))]
    refine ih hv (fun d hd => hq d (List.mem_cons_of_mem c hd)) ?_ ?_ hkeys hnd hval
    · intro v hvm w hadj hinw hpw
      rcases hcl v hvm w hadj hinw hpw with h | h
      · exact Or.inl h
      · rcases List.mem_cons.mp h with h | h
        · exact Or.inl (h ▸ hvis)
        · exact Or.inr h
    · intro hins hps
      rcases hs hins hps with h | h
      · exact Or.inl h
      · rcases List.mem_cons.mp h with h | h
        · exact Or.inl (h ▸ hvis)
        · exact Or.inr h
  | case4 c rest visited changes hg hvis hpc ih =>
    intro hv hq hcl hs hkeys hnd hval
    rw [ffAux_cons_skip p t fill c rest visited changes (Or.inr (Or.inr hpc))]
    refine ih hv (fun d hd => hq d (List.mem_cons_of_mem c hd)) ?_ ?_ hkeys hnd hval
    · intro v hvm w hadj hinw hpw
      rcases hcl v hvm w hadj hinw hpw with h | h
      · exact Or.inl h
      · rcases List.mem_cons.mp h with h | h
        · exact absurd (h ▸ hpw) hpc
        · exact Or.inr h
    · intro hins hps
      rcases hs hins hps with h | h
      · exact Or.inl h
      · rcases List.mem_cons.mp h with h | h
        · exact absurd (h ▸ hps) hpc
        · exact Or.inr h
  | case5 c rest visited changes hg hnv hpc ih =>
    intro hv hq hcl hs hkeys hnd hval
    have hin : inGrid c := not_not.mp hg
    have hpt : p c = t := not_not.mp hpc
    rw [ffAux_cons_visit p t fill c rest visited changes hin hnv hpt]
    have hreach : Reach p t s c := by
      rcases hq c (List.mem_cons_self c rest) with h | ⟨v, hvm, hadj⟩
      · exact h ▸ Reach.refl (h ▸ hin) (h ▸ hpt)
      · exact Reach.step (hv v hvm) hadj hin hpt
    refine ih ?_ ?_ ?_ ?_ ?_ ?_ ?_
    · intro d hd
      rcases Finset.mem_insert.mp hd with h | h
      · exact h ▸ hreach
      · exact hv d h
    · intro d hd
      rcases List.mem_append.mp hd with h | h
      · rcases hq d (List.mem_cons_of_mem c h) with h2 | ⟨v, hvm, hadj⟩
        · exact Or.inl h2
        · exact Or.inr ⟨v, Finset.mem_insert_of_mem hvm, hadj⟩
      · exact Or.inr ⟨c, Finset.mem_insert_self c visited, mem_nbrs.mp h⟩
    · intro v hvm w hadj hinw hpw
      rcases Finset.mem_insert.mp hvm with h | h
      · exact Or.inr (List.mem_append_right rest (mem_nbrs.mpr (h ▸ hadj)))
      · rcases hcl v h w hadj hinw hpw with h2 | h2
        · exact Or.inl (Finset.mem_insert_of_mem h2)
        · rcases List.mem_cons.mp h2 with h3 | h3
          · exact Or.inl (h3 ▸ Finset.mem_insert_self c visited)
          · exact Or.inr (List.mem_append_left _ h3)
    · intro hins hps
      rcases hs hins hps with h | h
      · exact Or.inl (Finset.mem_insert_of_mem h)
      · rcases List.mem_cons.mp h with h2 | h2
        · exact Or.inl (h2 ▸ Finset.mem_insert_self c visited)
        · exact Or.inr (List.mem_append_left _ h2)
    · intro d
      rw [keysOf_append]
      simp only [List.mem_append, keysOf, List.map_cons, List.map_nil,
        List.mem_singleton, Finset.mem_insert]
      rw [show (d ∈ List.map Prod.fst changes) = (d ∈ keysOf changes) from rfl,
        hkeys d]
      tauto
    · rw [keysOf_append]
      simp only [List.nodup_append, keysOf, List.map_cons, List.map_nil]
      refine ⟨hnd, by simp, ?_⟩
      intro d hd hd2
      simp only [List.mem_singleton] at hd2
      subst hd2
      exact hnv ((hkeys d).mp hd)
    · intro e he
      rcases List.mem_append.mp he with h | h
      · exact hval e h
      · simp only [List.mem_singleton] at h
        simp [h]

/-- C1: for every pixel map and in-grid start cell, `floodFill` returns a
change set whose keys are pairwise distinct (each cell visited at most
once), whose values all equal the fill colour, and whose key set — when
the start cell's original colour differs from the fill colour — is
exactly the maximal 4-connected region of cells sharing the start cell's
original colour (absent counting as a distinct colour); when the start
cell's colour already equals the fill colour the change set is empty. -/
theorem c1_floodFill_correct (p : PixelMap) (startX startY : Int)
    (fillColor : Color) (hin : inGrid (startX, startY)) :
    ((keysOf (floodFill p startX startY fillColor)).Nodup
      ∧ (∀ e ∈ floodFill p startX startY fillColor, e.2 = some fillColor)
      ∧ (p (startX, startY) ≠ some fillColor →
          ∀ c, c ∈ keysOf (floodFill p startX startY fillColor) ↔
            Reach p (p (startX, startY)) (startX, startY) c))
      ∧ (p (startX, startY) = some fillColor →
          floodFill p startX startY fillColor = []) := by
  by_cases h : p (startX, startY) = some fillColor
  · refine ⟨⟨?_, ?_, fun hne => absurd h hne⟩, fun _ => ?_⟩ <;>
      simp [floodFill, h, keysOf]
  · have hff : floodFill p startX startY fillColor =
        ffAux p (p (startX, startY)) fillColor [(startX, startY)] ∅ [] := by
      simp [floodFill, h]
    have hspec := ffAux_spec p (p (startX, startY)) fillColor (startX, startY)
      [(startX, startY)] ∅ []
      (by simp)
      (by intro c hc; simp only [List.mem_singleton] at hc; exact Or.inl hc)
      (by simp)
      (fun _ _ => Or.inr (List.mem_cons_self _ _))
      (by simp [keysOf])
      (by simp [keysOf])
      (by simp)
    rw [hff]
    exact ⟨⟨hspec.1, hspec.2.1, fun _ => hspec.2.2⟩, fun hcontra => absurd hcontra h⟩

/-- Closed witness for C1 at a concrete map, start cell and colour. -/
theorem c1_witness :
    inGrid ((0 : Int), (0 : Int)) ∧
      (((keysOf (floodFill pixelsW 0 0 "b")).Nodup
        ∧ (∀ e ∈ floodFill pixelsW 0 0 "b", e.2 = some "b")
        ∧ (pixelsW (0, 0) ≠ some "b" →
            ∀ c, c ∈ keysOf (floodFill pixelsW 0 0 "b") ↔
              Reach pixelsW (pixelsW (0, 0)) (0, 0) c))
        ∧ (pixelsW (0, 0) = some "b" → floodFill pixelsW 0 0 "b" = [])) :=
  ⟨by decide, c1_floodFill_correct pixelsW 0 0 "b" (by decide)⟩

lemma ffAux_keys_inGrid (p : PixelMap) (t : Option Color) (fill : Color) :
    ∀ (queue : List Cell) (visited : Finset Cell) (changes : Changes),
      (∀ c ∈ keysOf changes, inGrid c) →
      ∀ c ∈ keysOf (ffAux p t fill queue visited changes), inGrid c := by
  intro queue visited changes
  induction queue, visited, changes using ffAux.induct p t fill with
  | case1 visited changes =>
    intro h
    rw [ffAux_nil]
    exact h
  | case2 c rest visited changes hng ih =>
    intro h
    rw [ffAux_cons_skip p t fill c rest visited changes (Or.inl hng)]
    exact ih h
  | case3 c rest visited changes hg hvis ih =>
    intro h
    rw [ffAux_cons_skip p t fill c rest visited changes (Or.inr (Or.inl hvis))]
    exact ih h
  | case4 c rest visited changes hg hvis hpc ih =>
    intro h
    rw [ffAux_cons_skip p t fill c rest visited changes (Or.inr (Or.inr hpc))]
    exact ih h
  | case5 c rest visited changes hg hnv hpc ih =>
    rw [ffAux_cons_visit p t fill c rest visited changes (not_not.mp hg) hnv
      (not_not.mp hpc)]
    intro h
    refine ih ?_
    intro d hd
    rw [keysOf_append] at hd
    rcases List.mem_append.mp hd with h2 | h2
    · exact h d h2
    · simp only [keysOf, List.map_cons, List.map_nil, List.mem_singleton] at h2
      exact h2 ▸ not_not.mp hg

/-- C10: for every pixel map, fill colour and start coordinates —
including out-of-grid ones — every key in the change set returned by
`floodFill` lies inside the 24×24 grid, and an out-of-grid start cell
yields an empty change set. -/
theorem c10_floodFill_bounds (p : PixelMap) (startX startY : Int)
    (fillColor : Color) :
    (∀ c ∈ keysOf (floodFill p startX startY fillColor), inGrid c)
      ∧ (¬ inGrid (startX, startY) →
          floodFill p startX startY fillColor = []) := by
  constructor
  · intro c hc
    by_cases h : p (startX, startY) = some fillColor
    · simp [floodFill, h, keysOf] at hc
    · rw [show floodFill p startX startY fillColor =
          ffAux p (p (startX, startY)) fillColor [(startX, startY)] ∅ [] by
        simp [floodFill, h]] at hc
      exact ffAux_keys_inGrid p (p (startX, startY)) fillColor
        [(startX, startY)] ∅ [] (by simp [keysOf]) c hc
  · intro hng
    by_cases h : p (startX, startY) = some fillColor
    · simp [floodFill, h]
    · rw [show floodFill p startX startY fillColor =
          ffAux p (p (startX, startY)) fillColor [(startX, startY)] ∅ [] by
        simp [floodFill, h]]
      rw [ffAux_cons_skip p (p (startX, startY)) fillColor (startX, startY)
        [] ∅ [] (Or.inl hng), ffAux_nil]

/-- Closed witness for C10 at a concrete out-of-grid start. -/
theorem c10_witness :
    (∀ c ∈ keysOf (floodFill pixelsW 25 3 "b"), inGrid c)
      ∧ (¬ inGrid ((25 : Int), (3 : Int)) → floodFill pixelsW 25 3 "b" = []) :=
  c10_floodFill_bounds pixelsW 25 3 "b"

/-! ### Pairing claims (C5, C6) -/

/-- C5: when the looked-up code record's creator is the joining user,
`joinWithCode` fails with the self-pair error and performs zero writes —
the store comes back unchanged, so no pair record is created, no `pairId`
field is updated, and the code record is not deleted. -/
theorem c5_join_self_pair (st : Store) (code joiner joinerName : String)
    (now : Nat) (cd : PairCodeRec)
    (hcode : st.pairCodes (upperCode code) = some cd)
    (hself : cd.userId = joiner) :
    joinWithCode st code joiner joinerName now =
      (Except.error JoinError.selfPair, st) := by
  simp [joinWithCode, hcode, hself]

/-- Closed witness for C5: a user joining with their own code. -/
theorem c5_witness :
    joinWithCode storeW "qk7m2x" "U1" "Alice" 5 =
      (Except.error JoinError.selfPair, storeW) :=
  c5_join_self_pair storeW "qk7m2x" "U1" "Alice" 5
    { userId := "U1", userName := "Alice", createdAt := 0 }
    (by decide) (by decide)

/-- C6: with a valid code created by a different user, the first
`joinWithCode` succeeds with the derived pair id and deletes the consumed
code record, so a second call with the same code — by any caller — fails
with the code-not-found error and changes nothing. -/
theorem c6_join_code_consumed (st : Store)
    (code joiner joinerName joiner2 joinerName2 : String) (now now2 : Nat)
    (cd : PairCodeRec)
    (hcode : st.pairCodes (upperCode code) = some cd)
    (hne : cd.userId ≠ joiner) :
    (joinWithCode st code joiner joinerName now).1 =
        Except.ok (cd.userId ++ "_" ++ joiner)
      ∧ (joinWithCode st code joiner joinerName now).2.pairCodes
          (upperCode code) = none
      ∧ joinWithCode (joinWithCode st code joiner joinerName now).2 code
          joiner2 joinerName2 now2 =
          (Except.error JoinError.codeNotFound,
            (joinWithCode st code joiner joinerName now).2) := by
  have h1 : joinWithCode st code joiner joinerName now =
      (Except.ok (cd.userId ++ "_" ++ joiner),
        { st with
          pairs := setFn st.pairs (cd.userId ++ "_" ++ joiner)
            (some { id := cd.userId ++ "_" ++ joiner, user1 := cd.userId
                    user2 := joiner, createdAt := now })
          userPairId := setFn
            (setFn st.userPairId cd.userId (some (cd.userId ++ "_" ++ joiner)))
            joiner (some (cd.userId ++ "_" ++ joiner))
          pairCodes := setFn st.pairCodes (upperCode code) none }) := by
    simp [joinWithCode, hcode, hne]
  refine ⟨by rw [h1], ?_, ?_⟩
  · rw [h1]
    simp [setFn]
  · rw [h1]
    simp [joinWithCode, setFn]

/-- Closed witness for C6: a fresh user consumes the code, a replay
fails. -/
theorem c6_witness :
    (joinWithCode storeW "qk7m2x" "U2" "Bob" 5).1 = Except.ok ("U1" ++ "_" ++ "U2")
      ∧ (joinWithCode storeW "qk7m2x" "U2" "Bob" 5).2.pairCodes
          (upperCode "qk7m2x") = none
      ∧ joinWithCode (joinWithCode storeW "qk7m2x" "U2" "Bob" 5).2 "qk7m2x"
          "U3" "Cara" 6 =
          (Except.error JoinError.codeNotFound,
            (joinWithCode storeW "qk7m2x" "U2" "Bob" 5).2) :=
  c6_join_code_consumed storeW "qk7m2x" "U2" "Bob" "U3" "Cara" 5 6
    { userId := "U1", userName := "Alice", createdAt := 0 }
    (by decide) (by decide)

/-! ### Message claims (C7, C8, C9) -/

lemma runSends_latest_append (st : MsgStore) (l : List SendParams)
    (q : SendParams) :
    (runSends st (l ++ [q])).latest = some
      { content := q.content, type := q.type, authorId := q.authorId
        authorName := q.authorName, timestamp := q.timestamp } := by
  simp [runSends, List.foldl_append, sendMessage]

/-- C7: after any non-empty sequence of completed `sendMessage` calls on a
pair, whatever the mix of text and drawing kinds, the value
`subscribeToLatestMessage` delivers is the projection of the last call:
its content, author id and timestamp equal that call's arguments. -/
theorem c7_latest_mirrors_last_send (st : MsgStore) (ps : List SendParams)
    (h : ps ≠ []) :
    ∃ proj : LatestMessage,
      subscribeToLatestMessage (runSends st ps) = some proj
        ∧ proj.content = (ps.getLast h).content
        ∧ proj.authorId = (ps.getLast h).authorId
        ∧ proj.timestamp = (ps.getLast h).timestamp := by
  refine ⟨{ content := (ps.getLast h).content, type := (ps.getLast h).type
            authorId := (ps.getLast h).authorId
            authorName := (ps.getLast h).authorName
            timestamp := (ps.getLast h).timestamp }, ?_, rfl, rfl, rfl⟩
  show (runSends st ps).latest = _
  have hrun : runSends st ps = runSends st (ps.dropLast ++ [ps.getLast h]) := by
    rw [List.dropLast_append_getLast h]
  rw [hrun, runSends_latest_append]

/-- Closed witness for C7: two sends, one text then one drawing. -/
theorem c7_witness :
    ∃ proj : LatestMessage,
      subscribeToLatestMessage (runSends msgStoreW [sendW1, sendW2]) = some proj
        ∧ proj.content = (([sendW1, sendW2].getLast (by simp)).content)
        ∧ proj.authorId = (([sendW1, sendW2].getLast (by simp)).authorId)
        ∧ proj.timestamp = (([sendW1, sendW2].getLast (by simp)).timestamp) :=
  c7_latest_mirrors_last_send msgStoreW [sendW1, sendW2] (by simp)

/-- C8: in the write trace of every `sendMessage` call, any projection
(`latest`) write is preceded by the history write — the projection write
is never issued first. -/
theorem c8_history_before_latest (p : SendParams) (i : Nat)
    (proj : LatestMessage)
    (h : (sendMessageEvents p)[i]? = some (SendEvent.latestWrite proj)) :
    ∃ j msgId msg, j < i ∧
      (sendMessageEvents p)[j]? = some (SendEvent.historyWrite msgId msg) := by
  match i with
  | 0 => simp [sendMessageEvents] at h
  | 1 =>
    refine ⟨0, p.newId,
      { id := p.newId, pairId := p.pairId, authorId := p.authorId
        authorName := p.authorName, content := p.content, type := p.type
        timestamp := p.timestamp, read := false }, by omega, ?_⟩
    simp [sendMessageEvents]
  | 2 => simp [sendMessageEvents] at h
  | 3 => simp [sendMessageEvents] at h
  | 4 => simp [sendMessageEvents] at h
  | n + 5 => simp [sendMessageEvents] at h

/-- Closed witness for C8 at the only index carrying a projection write. -/
theorem c8_witness :
    ∃ j msgId msg, j < 1 ∧
      (sendMessageEvents sendW1)[j]? = some (SendEvent.historyWrite msgId msg) :=
  c8_history_before_latest sendW1 1
    { content := "hello", type := MessageType.text, authorId := "U1"
      authorName := "Alice", timestamp := 100 }
    (by decide)

/-- C9: `deleteMessage` removes exactly the named history record — every
other history record and the `latest` projection are untouched, even when
the deleted message is the one the projection currently reflects. -/
theorem c9_delete_frame (st : MsgStore) (pairId messageId : String) :
    (deleteMessage st pairId messageId).history messageId = none
      ∧ (∀ k, k ≠ messageId →
          (deleteMessage st pairId messageId).history k = st.history k)
      ∧ (deleteMessage st pairId messageId).latest = st.latest := by
  refine ⟨by simp [deleteMessage, setFn], fun k hk => ?_, rfl⟩
  simp [deleteMessage, setFn, hk]

/-! ### Stroke pre-image invariants (claims C2, C3, C4) -/

lemma applyChanges_false (s : CanvasState) (ch : Changes) :
    applyChanges s ch false =
      { s with
        pixels := applyPixels s.pixels ch
        pending := ch.foldl (fun pd kc => rset pd kc.1 kc.2) s.pending } := by
  simp [applyChanges]

lemma rlookup_append_single_cases {α : Type} (l : List (Cell × α)) (k : Cell)
    (w : α) (c : Cell) (v : α)
    (h : rlookup (l ++ [(k, w)]) c = some v) :
    rlookup l c = some v ∨ (rlookup l c = none ∧ c = k ∧ v = w) := by
  rw [rlookup_append] at h
  rcases hopt : rlookup l c with _ | u
  · rw [hopt] at h
    simp only [rlookup] at h
    by_cases hc : c = k
    · rw [if_pos hc] at h
      exact Or.inr ⟨rfl, hc, (Option.some.inj h).symm⟩
    · rw [if_neg hc] at h
      exact absurd h (by simp)
  · rw [hopt] at h
    exact Or.inl h

lemma rlookup_append_single_none {α : Type} (l : List (Cell × α)) (k : Cell)
    (w : α) (c : Cell) (h : rlookup (l ++ [(k, w)]) c = none) :
    rlookup l c = none := by
  rw [rlookup_append] at h
  rcases hopt : rlookup l c with _ | u
  · rfl
  · rw [hopt] at h
    simp at h

lemma nodup_keysOf_append_single {α : Type} (l : List (Cell × α)) (k : Cell)
    (w : α) (hnd : (keysOf l).Nodup) (hnotin : k ∉ keysOf l) :
    (keysOf (l ++ [(k, w)])).Nodup := by
  rw [keysOf_append]
  simp only [List.nodup_append, keysOf, List.map_cons, List.map_nil]
  refine ⟨hnd, by simp, ?_⟩
  intro d hd hd2
  simp only [List.mem_singleton] at hd2
  exact hnotin (hd2 ▸ hd)

/-- The fill branch's `strokePrev` merge: keys become the union, pairwise
distinct, and every recorded value is either an old record or the current
pixel colour of a previously unrecorded cell. -/
lemma mergePrev_spec (p : PixelMap) :
    ∀ (ch : Changes) (sp : Changes), (keysOf sp).Nodup →
      ((keysOf (mergePrev sp p ch)).Nodup
        ∧ (∀ c, c ∈ keysOf (mergePrev sp p ch) ↔
            c ∈ keysOf sp ∨ c ∈ keysOf ch)
        ∧ (∀ c v, rlookup (mergePrev sp p ch) c = some v →
            rlookup sp c = some v ∨ (rlookup sp c = none ∧ v = p c))) := by
  intro ch
  induction ch with
  | nil =>
    intro sp hnd
    refine ⟨hnd, fun c => by simp [mergePrev, keysOf], fun c v hv => Or.inl hv⟩
  | cons kc rest ih =>
    intro sp hnd
    by_cases hk : (rlookup sp kc.1).isSome
    · have hstep : mergePrev sp p (kc :: rest) = mergePrev sp p rest := by
        simp [mergePrev, hk]
      rw [hstep]
      obtain ⟨i1, i2, i3⟩ := ih sp hnd
      refine ⟨i1, fun c => ?_, i3⟩
      have hmem : kc.1 ∈ keysOf sp := (rlookup_isSome_iff sp kc.1).mp hk
      rw [i2 c]
      simp only [keysOf, List.map_cons, List.mem_cons]
      constructor
      · rintro (h | h)
        · exact Or.inl h
        · exact Or.inr (Or.inr h)
      · rintro (h | h | h)
        · exact Or.inl h
        · exact Or.inl (h ▸ hmem)
        · exact Or.inr h
    · have hstep : mergePrev sp p (kc :: rest) =
          mergePrev (sp ++ [(kc.1, p kc.1)]) p rest := by
        simp [mergePrev, hk]
      have hnotin : kc.1 ∉ keysOf sp := by
        intro hmem
        exact hk ((rlookup_isSome_iff sp kc.1).mpr hmem)
      rw [hstep]
      obtain ⟨i1, i2, i3⟩ := ih (sp ++ [(kc.1, p kc.1)])
        (nodup_keysOf_append_single sp kc.1 (p kc.1) hnd hnotin)
      refine ⟨i1, fun c => ?_, fun c v hv => ?_⟩
      · rw [i2 c, keysOf_append]
        simp only [List.mem_append, keysOf, List.map_cons, List.map_nil,
          List.mem_singleton, List.mem_cons]
        tauto
      · rcases i3 c v hv with h | ⟨h, hval⟩
        · rcases rlookup_append_single_cases sp kc.1 (p kc.1) c v h with
            h2 | ⟨h2, hc, hv2⟩
          · exact Or.inl h2
          · refine Or.inr ⟨h2, ?_⟩
            rw [hv2, hc]
        · exact Or.inr ⟨rlookup_append_single_none sp kc.1 (p kc.1) c h, hval⟩

/-- The pencil/eraser brush loop: `strokePrev` keys grow by exactly the
in-grid brush cells, stay pairwise distinct, the change keys are covered
by the new `strokePrev` keys, and new pre-image values are current pixel
colours of previously unrecorded cells. -/
lemma pencilFold_spec (p : PixelMap) (newColor : Option Color) :
    ∀ (cells : List Cell) (sp ch0 : Changes), (keysOf sp).Nodup →
      (∀ c ∈ keysOf ch0, c ∈ keysOf sp) →
      ((keysOf (cells.foldl (pencilStep p newColor) (sp, ch0)).1).Nodup
        ∧ (∀ c, c ∈ keysOf (cells.foldl (pencilStep p newColor) (sp, ch0)).1 ↔
            c ∈ keysOf sp ∨ (c ∈ cells ∧ inGrid c))
        ∧ (∀ c, c ∈ keysOf (cells.foldl (pencilStep p newColor) (sp, ch0)).2 ↔
            c ∈ keysOf ch0 ∨ (c ∈ cells ∧ inGrid c))
        ∧ (∀ c ∈ keysOf (cells.foldl (pencilStep p newColor) (sp, ch0)).2,
            c ∈ keysOf (cells.foldl (pencilStep p newColor) (sp, ch0)).1)
        ∧ (∀ c v,
            rlookup (cells.foldl (pencilStep p newColor) (sp, ch0)).1 c = some v →
            rlookup sp c = some v ∨ (rlookup sp c = none ∧ v = p c))) := by
  intro cells
  induction cells with
  | nil =>
    intro sp ch0 hnd hsub
    refine ⟨hnd, fun c => by simp, fun c => by simp, hsub, fun c v hv => Or.inl hv⟩
  | cons cc rest ih =>
    intro sp ch0 hnd hsub
    by_cases hg : inGrid cc
    · by_cases hk : (rlookup sp cc).isSome
      · have hstep : List.foldl (pencilStep p newColor) (sp, ch0) (cc :: rest) =
            List.foldl (pencilStep p newColor) (sp, rset ch0 cc newColor) rest := by
          simp [pencilStep, hg, hk]
        have hmem : cc ∈ keysOf sp := (rlookup_isSome_iff sp cc).mp hk
        have hsub2 : ∀ c ∈ keysOf (rset ch0 cc newColor), c ∈ keysOf sp := by
          intro c hc
          rw [keysOf_rset] at hc
          by_cases hcm : cc ∈ keysOf ch0
          · exact hsub c (by simpa [hcm] using hc)
          · simp only [if_neg hcm, List.mem_append, List.mem_singleton] at hc
            rcases hc with h | h
            · exact hsub c h
            · exact h ▸ hmem
        rw [hstep]
        obtain ⟨i1, i2, i3, i4, i5⟩ := ih sp (rset ch0 cc newColor) hnd hsub2
        refine ⟨i1, fun c => ?_, fun c => ?_, i4, i5⟩
        · rw [i2 c]
          by_cases hceq : c = cc
          · subst hceq
            simp [hg, hmem]
          · simp [hceq]
        · rw [i3 c, keysOf_rset]
          by_cases hcm : cc ∈ keysOf ch0
          · rw [if_pos hcm]
            by_cases hceq : c = cc
            · subst hceq
              simp [hg, hcm]
            · simp [hceq]
          · rw [if_neg hcm]
            by_cases hceq : c = cc
            · subst hceq
              simp [hg]
            · simp [hceq]
      · have hstep : List.foldl (pencilStep p newColor) (sp, ch0) (cc :: rest) =
            List.foldl (pencilStep p newColor)
              (sp ++ [(cc, p cc)], rset ch0 cc newColor) rest := by
          simp [pencilStep, hg, hk]
        have hnotin : cc ∉ keysOf sp := by
          intro hmem
          exact hk ((rlookup_isSome_iff sp cc).mpr hmem)
        have hsub2 : ∀ c ∈ keysOf (rset ch0 cc newColor),
            c ∈ keysOf (sp ++ [(cc, p cc)]) := by
          intro c hc
          rw [keysOf_rset] at hc
          rw [keysOf_append]
          simp only [List.mem_append, keysOf, List.map_cons, List.map_nil,
            List.mem_singleton]
          by_cases hcm : cc ∈ keysOf ch0
          · exact Or.inl (hsub c (by simpa [hcm] using hc))
          · simp only [if_neg hcm, List.mem_append, List.mem_singleton] at hc
            rcases hc with h | h
            · exact Or.inl (hsub c h)
            · exact Or.inr h
        rw [hstep]
        obtain ⟨i1, i2, i3, i4, i5⟩ :=
          ih (sp ++ [(cc, p cc)]) (rset ch0 cc newColor)
            (nodup_keysOf_append_single sp cc (p cc) hnd hnotin) hsub2
        refine ⟨i1, fun c => ?_, fun c => ?_, i4, fun c v hv => ?_⟩
        · rw [i2 c, keysOf_append]
          by_cases hceq : c = cc
          · subst hceq
            simp [hg, keysOf]
          · simp [hceq, keysOf]
        · rw [i3 c, keysOf_rset]
          by_cases hcm : cc ∈ keysOf ch0
          · rw [if_pos hcm]
            by_cases hceq : c = cc
            · subst hceq
              simp [hg, hcm]
            · simp [hceq]
          · rw [if_neg hcm]
            by_cases hceq : c = cc
            · subst hceq
              simp [hg]
            · simp [hceq]
        · rcases i5 c v hv with h | ⟨h, hval⟩
          · rcases rlookup_append_single_cases sp cc (p cc) c v h with
              h2 | ⟨h2, hc, hv2⟩
            · exact Or.inl h2
            · refine Or.inr ⟨h2, ?_⟩
              rw [hv2, hc]
          · exact Or.inr ⟨rlookup_append_single_none sp cc (p cc) c h, hval⟩
    · have hstep : List.foldl (pencilStep p newColor) (sp, ch0) (cc :: rest) =
          List.foldl (pencilStep p newColor) (sp, ch0) rest := by
        simp [pencilStep, hg]
      rw [hstep]
      obtain ⟨i1, i2, i3, i4, i5⟩ := ih sp ch0 hnd hsub
      refine ⟨i1, fun c => ?_, fun c => ?_, i4, i5⟩
      · rw [i2 c]
        by_cases hceq : c = cc
        · subst hceq
          simp [hg]
        · simp only [List.mem_cons, hceq, false_or]
      · rw [i3 c]
        by_cases hceq : c = cc
        · subst hceq
          simp [hg]
        · simp only [List.mem_cons, hceq, false_or]

lemma handleTouchC_out (s : CanvasState) (t : Touch)
    (h : ¬ inGrid (t.gx, t.gy)) : handleTouchC s t = (s, []) := by
  simp [handleTouchC, h]

lemma handleTouchC_fill_done (s : CanvasState) (t : Touch)
    (hg : inGrid (t.gx, t.gy)) (htool : t.tool = Tool.fill)
    (hf : s.fillDone = true) : handleTouchC s t = (s, []) := by
  simp [handleTouchC, hg, htool, hf]

lemma handleTouchC_fill_empty (s : CanvasState) (t : Touch)
    (hg : inGrid (t.gx, t.gy)) (htool : t.tool = Tool.fill)
    (hf : s.fillDone = false)
    (hch : floodFill s.pixels t.gx t.gy t.color = []) :
    handleTouchC s t = ({ s with fillDone := true }, []) := by
  simp [handleTouchC, hg, htool, hf, hch]

lemma handleTouchC_fill_eq (s : CanvasState) (t : Touch)
    (hg : inGrid (t.gx, t.gy)) (htool : t.tool = Tool.fill)
    (hf : s.fillDone = false)
    (hch : floodFill s.pixels t.gx t.gy t.color ≠ []) :
    handleTouchC s t =
      (applyChanges
        { s with
          fillDone := true
          strokePrev := mergePrev s.strokePrev s.pixels
            (floodFill s.pixels t.gx t.gy t.color) }
        (floodFill s.pixels t.gx t.gy t.color) false,
       floodFill s.pixels t.gx t.gy t.color) := by
  simp [handleTouchC, hg, htool, hf, hch]

lemma handleTouchC_dedup (s : CanvasState) (t : Touch)
    (hg : inGrid (t.gx, t.gy)) (htool : t.tool ≠ Tool.fill)
    (hl : s.lastKey = some (t.gx, t.gy)) : handleTouchC s t = (s, []) := by
  rcases ht : t.tool with _ | _ | _
  · simp [handleTouchC, hg, ht, hl]
  · exact absurd ht htool
  · simp [handleTouchC, hg, ht, hl]

lemma handleTouchC_pencil_eq (s : CanvasState) (t : Touch)
    (hg : inGrid (t.gx, t.gy)) (htool : t.tool = Tool.pencil)
    (hl : ¬ s.lastKey = some (t.gx, t.gy)) :
    handleTouchC s t =
      (applyChanges
        { s with
          lastKey := some (t.gx, t.gy)
          strokePrev :=
            (((brushOffsets t.brush).map fun d =>
                ((t.gx + (d.1 : Int), t.gy + (d.2 : Int)) : Cell)).foldl
              (pencilStep s.pixels (some t.color)) (s.strokePrev, [])).1 }
        (((brushOffsets t.brush).map fun d =>
            ((t.gx + (d.1 : Int), t.gy + (d.2 : Int)) : Cell)).foldl
          (pencilStep s.pixels (some t.color)) (s.strokePrev, [])).2 false,
       (((brushOffsets t.brush).map fun d =>
          ((t.gx + (d.1 : Int), t.gy + (d.2 : Int)) : Cell)).foldl
        (pencilStep s.pixels (some t.color)) (s.strokePrev, [])).2) := by
  simp [handleTouchC, hg, htool, hl]

lemma handleTouchC_eraser_eq (s : CanvasState) (t : Touch)
    (hg : inGrid (t.gx, t.gy)) (htool : t.tool = Tool.eraser)
    (hl : ¬ s.lastKey = some (t.gx, t.gy)) :
    handleTouchC s t =
      (applyChanges
        { s with
          lastKey := some (t.gx, t.gy)
          strokePrev :=
            (((brushOffsets t.brush).map fun d =>
                ((t.gx + (d.1 : Int), t.gy + (d.2 : Int)) : Cell)).foldl
              (pencilStep s.pixels none) (s.strokePrev, [])).1 }
        (((brushOffsets t.brush).map fun d =>
            ((t.gx + (d.1 : Int), t.gy + (d.2 : Int)) : Cell)).foldl
          (pencilStep s.pixels none) (s.strokePrev, [])).2 false,
       (((brushOffsets t.brush).map fun d =>
          ((t.gx + (d.1 : Int), t.gy + (d.2 : Int)) : Cell)).foldl
        (pencilStep s.pixels none) (s.strokePrev, [])).2) := by
  simp [handleTouchC, hg, htool, hl]

/-- The pre-image invariant carried across one `handleTouch` call:
`strokePrev` has pairwise-distinct keys, records only pre-stroke colours,
cells it does not record still hold their pre-stroke colour, its keys grow
exactly by this call's change keys, and the undo stack is untouched. -/
lemma handleTouchC_inv (p0 : PixelMap) (s : CanvasState) (t : Touch)
    (h1 : (keysOf s.strokePrev).Nodup)
    (h2 : ∀ c v, rlookup s.strokePrev c = some v → v = p0 c)
    (h3 : ∀ c, rlookup s.strokePrev c = none → s.pixels c = p0 c) :
    ((keysOf (handleTouchC s t).1.strokePrev).Nodup
      ∧ (∀ c v, rlookup (handleTouchC s t).1.strokePrev c = some v → v = p0 c)
      ∧ (∀ c, rlookup (handleTouchC s t).1.strokePrev c = none →
          (handleTouchC s t).1.pixels c = p0 c)
      ∧ (∀ c, c ∈ keysOf (handleTouchC s t).1.strokePrev ↔
          c ∈ keysOf s.strokePrev ∨ c ∈ keysOf (handleTouchC s t).2)
      ∧ (handleTouchC s t).1.undoStack = s.undoStack) := by
  have hbrush : ∀ (newColor : Option Color),
      ¬ s.lastKey = some (t.gx, t.gy) →
      (handleTouchC s t =
        (applyChanges
          { s with
            lastKey := some (t.gx, t.gy)
            strokePrev :=
              (((brushOffsets t.brush).map fun d =>
                  ((t.gx + (d.1 : Int), t.gy + (d.2 : Int)) : Cell)).foldl
                (pencilStep s.pixels newColor) (s.strokePrev, [])).1 }
          (((brushOffsets t.brush).map fun d =>
              ((t.gx + (d.1 : Int), t.gy + (d.2 : Int)) : Cell)).foldl
            (pencilStep s.pixels newColor) (s.strokePrev, [])).2 false,
         (((brushOffsets t.brush).map fun d =>
            ((t.gx + (d.1 : Int), t.gy + (d.2 : Int)) : Cell)).foldl
          (pencilStep s.pixels newColor) (s.strokePrev, [])).2)) →
      ((keysOf (handleTouchC s t).1.strokePrev).Nodup
        ∧ (∀ c v, rlookup (handleTouchC s t).1.strokePrev c = some v → v = p0 c)
        ∧ (∀ c, rlookup (handleTouchC s t).1.strokePrev c = none →
            (handleTouchC s t).1.pixels c = p0 c)
        ∧ (∀ c, c ∈ keysOf (handleTouchC s t).1.strokePrev ↔
            c ∈ keysOf s.strokePrev ∨ c ∈ keysOf (handleTouchC s t).2)
        ∧ (handleTouchC s t).1.undoStack = s.undoStack) := by
    intro newColor hl heq
    rw [heq]
    obtain ⟨i1, i2, i3, i4, i5⟩ :=
      pencilFold_spec s.pixels newColor
        ((brushOffsets t.brush).map fun d =>
          ((t.gx + (d.1 : Int), t.gy + (d.2 : Int)) : Cell))
        s.strokePrev [] h1 (by simp [keysOf])
    rw [applyChanges_false]
    refine ⟨i1, ?_, ?_, ?_, rfl⟩
    · intro c v hv
      rcases i5 c v hv with h | ⟨h, hval⟩
      · exact h2 c v h
      · rw [hval]
        exact h3 c h
    · intro c hnone
      have hc1 : c ∉ keysOf
          (((brushOffsets t.brush).map fun d =>
            ((t.gx + (d.1 : Int), t.gy + (d.2 : Int)) : Cell)).foldl
            (pencilStep s.pixels newColor) (s.strokePrev, [])).1 :=
        (rlookup_eq_none_iff _ c).mp hnone
      have hc2 : c ∉ keysOf
          (((brushOffsets t.brush).map fun d =>
            ((t.gx + (d.1 : Int), t.gy + (d.2 : Int)) : Cell)).foldl
            (pencilStep s.pixels newColor) (s.strokePrev, [])).2 :=
        fun hm => hc1 (i4 c hm)
      show applyPixels s.pixels _ c = p0 c
      rw [applyPixels_notin _ s.pixels c hc2]
      refine h3 c ((rlookup_eq_none_iff _ c).mpr ?_)
      intro hm
      exact hc1 ((i2 c).mpr (Or.inl hm))
    · intro c
      rw [i2 c, i3 c]
      simp [keysOf]
  by_cases hg : inGrid (t.gx, t.gy)
  · rcases htool : t.tool with _ | _ | _
    · by_cases hl : s.lastKey = some (t.gx, t.gy)
      · rw [handleTouchC_dedup s t hg (by simp [htool]) hl]
        exact ⟨h1, h2, h3, fun c => by simp [keysOf], rfl⟩
      · exact hbrush (some t.color) hl (handleTouchC_pencil_eq s t hg htool hl)
    · by_cases hf : s.fillDone
      · rw [handleTouchC_fill_done s t hg htool hf]
        exact ⟨h1, h2, h3, fun c => by simp [keysOf], rfl⟩
      · by_cases hch : floodFill s.pixels t.gx t.gy t.color = []
        · rw [handleTouchC_fill_empty s t hg htool (by simpa using hf) hch]
          exact ⟨h1, h2, h3, fun c => by simp [keysOf], rfl⟩
        · rw [handleTouchC_fill_eq s t hg htool (by simpa using hf) hch]
          obtain ⟨m1, m2, m3⟩ :=
            mergePrev_spec s.pixels (floodFill s.pixels t.gx t.gy t.color)
              s.strokePrev h1
          rw [applyChanges_false]
          refine ⟨m1, ?_, ?_, m2, rfl⟩
          · intro c v hv
            rcases m3 c v hv with h | ⟨h, hval⟩
            · exact h2 c v h
            · rw [hval]
              exact h3 c h
          · intro c hnone
            have hc1 : c ∉ keysOf (mergePrev s.strokePrev s.pixels
                (floodFill s.pixels t.gx t.gy t.color)) :=
              (rlookup_eq_none_iff _ c).mp hnone
            have hc2 : c ∉ keysOf (floodFill s.pixels t.gx t.gy t.color) :=
              fun hm => hc1 ((m2 c).mpr (Or.inr hm))
            show applyPixels s.pixels _ c = p0 c
            rw [applyPixels_notin _ s.pixels c hc2]
            refine h3 c ((rlookup_eq_none_iff _ c).mpr ?_)
            intro hm
            exact hc1 ((m2 c).mpr (Or.inl hm))
    · by_cases hl : s.lastKey = some (t.gx, t.gy)
      · rw [handleTouchC_dedup s t hg (by simp [htool]) hl]
        exact ⟨h1, h2, h3, fun c => by simp [keysOf], rfl⟩
      · exact hbrush none hl (handleTouchC_eraser_eq s t hg htool hl)
  · rw [handleTouchC_out s t hg]
    exact ⟨h1, h2, h3, fun c => by simp [keysOf], rfl⟩

lemma touchesWithKeys_fst :
    ∀ (ts : List Touch) (s : CanvasState),
      (touchesWithKeys s ts).1 = ts.foldl handleTouch s
  | [], s => rfl
  | t :: rest, s => by
    simp only [touchesWithKeys, List.foldl_cons]
    exact touchesWithKeys_fst rest (handleTouch s t)

/-- The pre-image invariant over a whole touch sequence. -/
lemma strokeFold_inv (p0 : PixelMap) :
    ∀ (ts : List Touch) (s : CanvasState),
      (keysOf s.strokePrev).Nodup →
      (∀ c v, rlookup s.strokePrev c = some v → v = p0 c) →
      (∀ c, rlookup s.strokePrev c = none → s.pixels c = p0 c) →
      ((keysOf (touchesWithKeys s ts).1.strokePrev).Nodup
        ∧ (∀ c v, rlookup (touchesWithKeys s ts).1.strokePrev c = some v →
            v = p0 c)
        ∧ (∀ c, rlookup (touchesWithKeys s ts).1.strokePrev c = none →
            (touchesWithKeys s ts).1.pixels c = p0 c)
        ∧ (∀ c, c ∈ keysOf (touchesWithKeys s ts).1.strokePrev ↔
            c ∈ keysOf s.strokePrev ∨ c ∈ (touchesWithKeys s ts).2)
        ∧ (touchesWithKeys s ts).1.undoStack = s.undoStack) := by
  intro ts
  induction ts with
  | nil =>
    intro s hh1 hh2 hh3
    exact ⟨hh1, hh2, hh3, fun c => by simp [touchesWithKeys], rfl⟩
  | cons t rest ih =>
    intro s hh1 hh2 hh3
    have e1 : (touchesWithKeys s (t :: rest)).1 =
        (touchesWithKeys (handleTouchC s t).1 rest).1 := by
      simp [touchesWithKeys]
    have e2 : (touchesWithKeys s (t :: rest)).2 =
        keysOf (handleTouchC s t).2 ++
          (touchesWithKeys (handleTouchC s t).1 rest).2 := by
      simp [touchesWithKeys]
    obtain ⟨j1, j2, j3, j4, j5⟩ := handleTouchC_inv p0 s t hh1 hh2 hh3
    obtain ⟨k1, k2, k3, k4, k5⟩ := ih (handleTouchC s t).1 j1 j2 j3
    rw [e1, e2]
    refine ⟨k1, k2, k3, fun c => ?_, k5.trans j5⟩
    rw [k4 c, j4 c]
    simp only [List.mem_append]
    tauto

/-- The stroke-level pre-image facts shared by the C2, C3 and C4 proofs,
instantiated at the reset state `onBegin` installs. -/
lemma stroke_inv (s : CanvasState) (ts : List Touch) :
    ((keysOf (strokeSnap s ts)).Nodup
      ∧ (∀ c v, rlookup (strokeSnap s ts) c = some v → v = s.pixels c)
      ∧ (∀ c, rlookup (strokeSnap s ts) c = none →
          (midStroke s ts).pixels c = s.pixels c)
      ∧ (∀ c, c ∈ keysOf (strokeSnap s ts) ↔ c ∈ strokeTouched s ts)
      ∧ (midStroke s ts).undoStack = s.undoStack) := by
  have hmid : midStroke s ts = (touchesWithKeys (strokeBegin s) ts).1 :=
    (touchesWithKeys_fst ts (strokeBegin s)).symm
  obtain ⟨k1, k2, k3, k4, k5⟩ :=
    strokeFold_inv s.pixels ts (strokeBegin s)
      (by simp [strokeBegin, keysOf])
      (by intro c v hv; simp [strokeBegin, rlookup] at hv)
      (fun c _ => rfl)
  have hsnap : strokeSnap s ts = (touchesWithKeys (strokeBegin s) ts).1.strokePrev := by
    rw [strokeSnap, hmid]
  rw [hsnap]
  refine ⟨k1, k2, ?_, fun c => ?_, ?_⟩
  · intro c hc
    rw [hmid]
    exact k3 c hc
  · rw [k4 c]
    simp [strokeBegin, keysOf, strokeTouched]
  · rw [hmid]
    exact k5

lemma strokeEnd_pixels (s : CanvasState) : (strokeEnd s).pixels = s.pixels := by
  unfold strokeEnd
  split <;> rfl

lemma doStroke_pixels (s : CanvasState) (ts : List Touch) :
    (doStroke s ts).pixels = (midStroke s ts).pixels :=
  strokeEnd_pixels (midStroke s ts)

lemma doStroke_stack (s : CanvasState) (ts : List Touch) :
    (doStroke s ts).undoStack =
      if strokeSnap s ts = [] then s.undoStack
      else takeRight 19 s.undoStack ++ [strokeSnap s ts] := by
  have hstack := (stroke_inv s ts).2.2.2.2
  unfold doStroke strokeEnd
  rw [show (midStroke s ts).strokePrev = strokeSnap s ts from rfl]
  split <;> simp [hstack]

/-- C2: for every single stroke, the pre-image record it pushes has
pairwise-distinct keys (exactly one entry per cell), its key set is
exactly the set `S` of cells the stroke's edits touched, every recorded
value is the cell's colour immediately before the stroke began (`none`
for an empty cell), and when non-empty it is exactly the snapshot pushed
onto the undo stack at stroke end. -/
theorem c2_stroke_snapshot (s : CanvasState) (ts : List Touch) :
    ((keysOf (strokeSnap s ts)).Nodup
      ∧ (∀ c, c ∈ keysOf (strokeSnap s ts) ↔ c ∈ strokeTouched s ts)
      ∧ (∀ c v, rlookup (strokeSnap s ts) c = some v → v = s.pixels c)
      ∧ (strokeSnap s ts ≠ [] →
          (doStroke s ts).undoStack =
            takeRight 19 s.undoStack ++ [strokeSnap s ts])) := by
  obtain ⟨k1, k2, k3, k4, k5⟩ := stroke_inv s ts
  refine ⟨k1, k4, k2, fun hne => ?_⟩
  rw [doStroke_stack s ts, if_neg hne]

/-- Closed witness for C2: a single 2×2 pencil touch. -/
theorem c2_witness :
    ((keysOf (strokeSnap canvasW [touchW])).Nodup
      ∧ (∀ c, c ∈ keysOf (strokeSnap canvasW [touchW]) ↔
          c ∈ strokeTouched canvasW [touchW])
      ∧ (∀ c v, rlookup (strokeSnap canvasW [touchW]) c = some v →
          v = canvasW.pixels c)
      ∧ (strokeSnap canvasW [touchW] ≠ [] →
          (doStroke canvasW [touchW]).undoStack =
            takeRight 19 canvasW.undoStack ++ [strokeSnap canvasW [touchW]])) :=
  c2_stroke_snapshot canvasW [touchW]

/-- Applying a stroke's snapshot to the post-stroke pixel map restores
the pre-stroke pixel map. -/
lemma stroke_restore (s : CanvasState) (ts : List Touch) (c : Cell) :
    applyPixels (doStroke s ts).pixels (strokeSnap s ts) c = s.pixels c := by
  obtain ⟨k1, k2, k3, _, _⟩ := stroke_inv s ts
  rw [doStroke_pixels, applyPixels_lookup (strokeSnap s ts) _ c k1]
  rcases hv : rlookup (strokeSnap s ts) c with _ | v
  · exact k3 c hv
  · exact k2 c v hv

/-- C4: for every non-empty undo stack, `handleUndo` pops exactly the most
recent snapshot, re-applies it to the pixel map (a `none` value deletes
the cell, a colour overwrites it, unmentioned cells keep their colour),
and pushes nothing — the stack is exactly the old stack minus its top. -/
theorem c4_undo_pops (s : CanvasState) (stack : List Changes) (last : Changes)
    (hstack : s.undoStack = stack ++ [last])
    (hnd : (keysOf last).Nodup) :
    ((handleUndo s).undoStack = stack
      ∧ (∀ c v, rlookup last c = some v → (handleUndo s).pixels c = v)
      ∧ (∀ c, rlookup last c = none → (handleUndo s).pixels c = s.pixels c)) := by
  have hlast : s.undoStack.getLast? = some last := by
    rw [hstack]
    exact List.getLast?_concat stack
  have hdrop : s.undoStack.dropLast = stack := by
    rw [hstack]
    exact List.dropLast_concat
  have hundo : handleUndo s =
      applyChanges { s with undoStack := stack } last false := by
    unfold handleUndo
    rw [hlast, hdrop]
  rw [hundo, applyChanges_false]
  refine ⟨rfl, fun c v hv => ?_, fun c hv => ?_⟩
  · show applyPixels s.pixels last c = v
    rw [applyPixels_lookup last s.pixels c hnd, hv]
  · show applyPixels s.pixels last c = s.pixels c
    rw [applyPixels_lookup last s.pixels c hnd, hv]

/-- Closed witness for C4: a stack of two snapshots; the popped one
deletes `(0,0)` and paints `(3,3)`. -/
theorem c4_witness :
    ((handleUndo canvasW2).undoStack = [[((2, 2), some "q")]]
      ∧ (∀ c v, rlookup [((0, 0), none), ((3, 3), some "z")] c = some v →
          (handleUndo canvasW2).pixels c = v)
      ∧ (∀ c, rlookup [((0, 0), none), ((3, 3), some "z")] c = none →
          (handleUndo canvasW2).pixels c = canvasW2.pixels c)) :=
  c4_undo_pops canvasW2 [[((2, 2), some "q")]]
    [((0, 0), none), ((3, 3), some "z")] (by decide) (by decide)

lemma length_takeRight_le {α : Type} (n : Nat) (l : List α) :
    (takeRight n l).length ≤ n := by
  simp only [takeRight, List.length_drop]
  omega

lemma takeRight_of_le {α : Type} (n : Nat) (l : List α) (h : l.length ≤ n) :
    takeRight n l = l := by
  unfold takeRight
  have hz : l.length - n = 0 := by omega
  rw [hz, List.drop_zero]

lemma takeRight_append_single {α : Type} (n : Nat) (hn : 1 ≤ n) (l : List α)
    (x : α) : takeRight n (l ++ [x]) = takeRight (n - 1) l ++ [x] := by
  unfold takeRight
  rw [List.length_append]
  have h1 : l.length + [x].length - n ≤ l.length := by simp; omega
  rw [List.drop_append_of_le_length h1]
  have h2 : l.length + [x].length - n = l.length - (n - 1) := by simp; omega
  rw [h2]

lemma takeRight_takeRight {α : Type} (a b : Nat) (l : List α) (hab : a ≤ b) :
    takeRight a (takeRight b l) = takeRight a l := by
  unfold takeRight
  rw [List.length_drop, List.drop_drop]
  have hidx : l.length - b + (l.length - (l.length - b) - a) = l.length - a := by
    omega
  rw [hidx]

lemma doStroke_stack_length (s : CanvasState) (ts : List Touch)
    (h : s.undoStack.length ≤ 20) :
    (doStroke s ts).undoStack.length ≤ 20 := by
  rw [doStroke_stack]
  split
  · exact h
  · rw [List.length_append]
    have := length_takeRight_le 19 s.undoStack
    simp only [List.length_singleton]
    omega

lemma runStrokes_le20 :
    ∀ (strokes : List (List Touch)) (s0 : CanvasState),
      s0.undoStack.length ≤ 20 →
      (runStrokes s0 strokes).undoStack.length ≤ 20
  | [], _, h => h
  | ts :: rest, s0, h =>
    runStrokes_le20 rest (doStroke s0 ts) (doStroke_stack_length s0 ts h)

lemma runStrokes_append (s : CanvasState) (l1 l2 : List (List Touch)) :
    runStrokes s (l1 ++ l2) = runStrokes (runStrokes s l1) l2 := by
  simp [runStrokes, List.foldl_append]

/-- Undoing `k ≤ 20` times after the stroke sequence recovers the pixel
map from `k` strokes earlier, with the stack's tail matching the earlier
run's stack. -/
lemma c3_aux (s0 : CanvasState) (strokes : List (List Touch))
    (h0 : s0.undoStack.length ≤ 20) (hc : Committed s0 strokes)
    (hn : 20 ≤ strokes.length) :
    ∀ k, k ≤ 20 →
      ((undoN k (runStrokes s0 strokes)).pixels
          = (runStrokes s0 (strokes.take (strokes.length - k))).pixels
        ∧ (undoN k (runStrokes s0 strokes)).undoStack
          = takeRight (20 - k)
              ((runStrokes s0 (strokes.take (strokes.length - k))).undoStack)) := by
  intro k
  induction k with
  | zero =>
    intro _
    rw [Nat.sub_zero, List.take_length]
    exact ⟨rfl,
      (takeRight_of_le 20 _ (runStrokes_le20 strokes s0 h0)).symm⟩
  | succ k ih =>
    intro hk1
    obtain ⟨ihp, ihs⟩ := ih (by omega)
    set m := strokes.length - k - 1 with hmdef
    have hi : m < strokes.length := by omega
    have hm1 : strokes.length - k = m + 1 := by omega
    have htake : strokes.take (m + 1) = strokes.take m ++ [strokes[m]] := by
      rw [List.take_succ, List.getElem?_eq_getElem hi]
      rfl
    have hrunm : runStrokes s0 (strokes.take (m + 1)) =
        doStroke (runStrokes s0 (strokes.take m)) strokes[m] := by
      rw [htake, runStrokes_append]
      rfl
    have hsnap :
        strokeSnap (runStrokes s0 (strokes.take m)) strokes[m] ≠ [] := hc m hi
    have hstackm : (runStrokes s0 (strokes.take (m + 1))).undoStack =
        takeRight 19 (runStrokes s0 (strokes.take m)).undoStack
          ++ [strokeSnap (runStrokes s0 (strokes.take m)) strokes[m]] := by
      rw [hrunm, doStroke_stack, if_neg hsnap]
    rw [hm1] at ihp ihs
    have hXstack : (undoN k (runStrokes s0 strokes)).undoStack =
        takeRight (19 - k) (runStrokes s0 (strokes.take m)).undoStack
          ++ [strokeSnap (runStrokes s0 (strokes.take m)) strokes[m]] := by
      rw [ihs, hstackm, takeRight_append_single (20 - k) (by omega)]
      rw [takeRight_takeRight (20 - k - 1) 19 _ (by omega)]
      have h19 : 20 - k - 1 = 19 - k := by omega
      rw [h19]
    have hgl : (undoN k (runStrokes s0 strokes)).undoStack.getLast? =
        some (strokeSnap (runStrokes s0 (strokes.take m)) strokes[m]) := by
      rw [hXstack]
      exact List.getLast?_concat _
    have hdl : (undoN k (runStrokes s0 strokes)).undoStack.dropLast =
        takeRight (19 - k) (runStrokes s0 (strokes.take m)).undoStack := by
      rw [hXstack]
      exact List.dropLast_concat
    have hundo : undoN (k + 1) (runStrokes s0 strokes) =
        applyChanges
          { undoN k (runStrokes s0 strokes) with
            undoStack := takeRight (19 - k)
              (runStrokes s0 (strokes.take m)).undoStack }
          (strokeSnap (runStrokes s0 (strokes.take m)) strokes[m]) false := by
      show handleUndo (undoN k (runStrokes s0 strokes)) = _
      unfold handleUndo
      rw [hgl, hdl]
    have hidx : strokes.length - (k + 1) = m := by omega
    rw [hidx]
    constructor
    · rw [hundo, applyChanges_false]
      show applyPixels (undoN k (runStrokes s0 strokes)).pixels _ = _
      rw [ihp, hrunm]
      funext c
      exact stroke_restore _ _ c
    · rw [hundo, applyChanges_false]
      show takeRight (19 - k) _ = takeRight (20 - (k + 1)) _
      have h20 : 20 - (k + 1) = 19 - k := by omega
      rw [h20]

/-- C3: starting from any state whose undo stack is within the cap, the
undo stack never exceeds 20 snapshots after any prefix of the stroke
sequence, and after more than 20 committed strokes undoing 20 times
returns the grid exactly to its state 20 strokes prior. -/
theorem c3_undo_stack_bound (s0 : CanvasState) (strokes : List (List Touch))
    (h0 : s0.undoStack.length ≤ 20) (hc : Committed s0 strokes)
    (hn : 20 < strokes.length) :
    ((∀ j, (runStrokes s0 (strokes.take j)).undoStack.length ≤ 20)
      ∧ (undoN 20 (runStrokes s0 strokes)).pixels
          = (runStrokes s0 (strokes.take (strokes.length - 20))).pixels) := by
  refine ⟨fun j => runStrokes_le20 (strokes.take j) s0 h0, ?_⟩
  exact (c3_aux s0 strokes h0 hc (by omega) 20 le_rfl).1

/-- Closed witness for C3: twenty-one committed single-touch strokes. -/
theorem c3_witness :
    ((∀ j, (runStrokes canvasW (strokesW.take j)).undoStack.length ≤ 20)
      ∧ (undoN 20 (runStrokes canvasW strokesW)).pixels
          = (runStrokes canvasW
              (strokesW.take (strokesW.length - 20))).pixels) :=
  c3_undo_stack_bound canvasW strokesW (by decide) (by decide) (by decide)

/-- Closed witness for C9: deleting the message the projection reflects. -/
theorem c9_witness :
    (deleteMessage (runSends msgStoreW [sendW1]) "pairW" "m1").history "m1" = none
      ∧ (∀ k, k ≠ "m1" →
          (deleteMessage (runSends msgStoreW [sendW1]) "pairW" "m1").history k
            = (runSends msgStoreW [sendW1]).history k)
      ∧ (deleteMessage (runSends msgStoreW [sendW1]) "pairW" "m1").latest
          = (runSends msgStoreW [sendW1]).latest :=
  c9_delete_frame (runSends msgStoreW [sendW1]) "pairW" "m1"

end LockNote
